import Mathlib

/-!
Verification of the LIC (Line Integral Convolution) OpenFX plugin kernel
(`src/lic.cpp`, class `LICProcessor`).

The embedding models the C++ float computations in exact arithmetic:
integer quantities (`int`) become `ℤ`, float quantities become `ℝ`
(every float value is a real number; the model is the exact-arithmetic
idealization of the kernel), and the step-weight computation, which is
built from integer arithmetic plus one float division, is modelled in `ℚ`.
C style truncated integer remainder (`%` on `int`) is `Int.tmod`, and the
float-to-int conversion `int(x)` (truncation toward zero) is `truncToInt`.

A second copy of the per-pixel kernel over `Option ℝ` (`none` modelling
an IEEE NaN payload, with C++ comparison semantics) is used to settle the
claims that quantify over vector fields containing NaN components.
-/

namespace LIC

/-! ## The clamp helper (lic.cpp, lines 34-42) -/

/-- Embedding of the C++ template `clamp(value, lower, upper)`. -/
def clamp {T : Type} [LinearOrder T] (value lower upper : T) : T :=
  if value < lower then lower
  else if upper < value then upper
  else value

/-! ## Step weights (lic.cpp, `LICProcessor::getStepWeight`, lines 80-96) -/

/-- Embedding of the distance computed inside `getStepWeight`:
`idx = (signedIdx + num_steps) % (N + 1)`,
`offsetIdx = (weight_window_offset + num_steps) % N`,
`offsetIdx2 = offsetIdx + N`,
`dist = min(abs(idx - offsetIdx), abs(idx - offsetIdx2))`
with `N = 2 * num_steps` and `%` the C truncated remainder. -/
def codeDist (numSteps wwOffset signedIdx : ℤ) : ℤ :=
  let N := 2 * numSteps
  let idx := (signedIdx + numSteps).tmod (N + 1)
  let offsetIdx := (wwOffset + numSteps).tmod N
  let offsetIdx2 := (wwOffset + numSteps).tmod N + N
  min ((idx - offsetIdx).natAbs : ℤ) ((idx - offsetIdx2).natAbs : ℤ)

/-- Embedding of `LICProcessor::getStepWeight`.  The float result is
modelled exactly in `ℚ` (the only non-integer operation is one float
division, whose exact value the claims reason about). -/
def getStepWeight (useWeightWindow : Bool) (numSteps wwWidth wwOffset signedIdx : ℤ) : ℚ :=
  if useWeightWindow = false then 1
  else
    let dist := codeDist numSteps wwOffset signedIdx
    if wwWidth < dist then 0
    else 1 - (dist : ℚ) / (wwWidth : ℚ)

/-- Modelled from the words of the spec (sections 4.4 and 8): the minimal
circular distance between step index `i` and the window center `offset`,
modulo the cycle length `N`.  This is the comparison point for the claim
about `getStepWeight`; it is not part of the code embedding. -/
def circularDist (N i offset : ℤ) : ℤ :=
  min ((i - offset) % N) ((offset - i) % N)

/-! ### Arithmetic helper lemmas about `tmod` and `emod` -/

/-- Truncated remainder is odd in the dividend. -/
theorem tmod_neg_left (a b : ℤ) : (-a).tmod b = -(a.tmod b) := by
  rw [Int.tmod_def, Int.tmod_def, Int.neg_tdiv]
  ring

/-- Truncated remainder agrees with the dividend modulo the divisor. -/
theorem tmod_emod (a b : ℤ) : a.tmod b % b = a % b := by
  conv_rhs => rw [← Int.tmod_add_tdiv a b]
  rw [Int.add_mul_emod_self_left]

/-- Both-sided bound for the truncated remainder with a positive divisor. -/
theorem tmod_bounds (a : ℤ) {b : ℤ} (hb : 0 < b) : -b < a.tmod b ∧ a.tmod b < b := by
  rcases le_or_lt 0 a with ha | ha
  · have h1 : 0 ≤ a.tmod b := Int.tmod_nonneg b ha
    have h2 : a.tmod b < b := Int.tmod_lt_of_pos a hb
    omega
  · have hodd : a.tmod b = -((-a).tmod b) := by
      rw [tmod_neg_left]; ring
    have h1 : 0 ≤ (-a).tmod b := Int.tmod_nonneg b (by omega)
    have h2 : (-a).tmod b < b := Int.tmod_lt_of_pos (-a) hb
    omega

/-- For a nonnegative dividend, the Euclidean remainder is at most the dividend. -/
theorem emod_le_self {z N : ℤ} (hz : 0 ≤ z) (hN : 0 ≤ N) : z % N ≤ z := by
  rw [Int.emod_def]
  have : 0 ≤ N * (z / N) := mul_nonneg hN (Int.ediv_nonneg hz hN)
  omega

/-- The minimal circular distance of a difference `d` is bounded by `|d|`. -/
theorem min_emod_le_natAbs (d : ℤ) {N : ℤ} (hN : 0 < N) :
    min (d % N) ((-d) % N) ≤ (d.natAbs : ℤ) := by
  rcases le_or_lt 0 d with hd | hd
  · have h1 : d % N ≤ d := emod_le_self hd hN.le
    have h2 : (d.natAbs : ℤ) = d := Int.natAbs_of_nonneg hd
    omega
  · have h1 : (-d) % N ≤ -d := emod_le_self (by omega) hN.le
    have h2 : (d.natAbs : ℤ) = -d := by omega
    omega

/-- The minimal circular distance depends only on the residue of the difference. -/
theorem min_emod_congr (d e N : ℤ) (h : d % N = e % N) :
    min (d % N) ((-d) % N) = min (e % N) ((-e) % N) := by
  have hneg : (-d) % N = (-e) % N := by
    apply Int.emod_eq_emod_iff_emod_sub_eq_zero.mpr
    have hdvd : N ∣ d - e :=
      Int.dvd_of_emod_eq_zero (Int.emod_eq_emod_iff_emod_sub_eq_zero.mp h)
    have hdvd2 : N ∣ -d - -e := by
      have heq : -d - -e = -(d - e) := by ring
      rw [heq]
      exact dvd_neg.mpr hdvd
    exact Int.emod_eq_zero_of_dvd hdvd2
  rw [h, hneg]

/-- Reduction of `getStepWeight` with the window enabled. -/
theorem getStepWeight_true_eq (ns w o i : ℤ) :
    getStepWeight true ns w o i =
      if w < codeDist ns o i then 0 else 1 - (codeDist ns o i : ℚ) / (w : ℚ) := by
  rw [getStepWeight]
  simp

/-- The distance computed by the code is never below the true circular distance. -/
theorem circularDist_le_codeDist (ns o i : ℤ)
    (hns : 1 ≤ ns) (hlo : -ns ≤ i) (hhi : i ≤ ns) :
    circularDist (2 * ns) i o ≤ codeDist ns o i := by
  set N := 2 * ns with hNdef
  have hN : 0 < N := by omega
  have hidx : (i + ns).tmod (N + 1) = i + ns := Int.tmod_eq_of_lt (by omega) (by omega)
  set r := (o + ns).tmod N with hrdef
  have hdvd0 : N ∣ (o + ns) - r := by
    refine ⟨(o + ns).tdiv N, ?_⟩
    have h := Int.tmod_add_tdiv (o + ns) N
    linarith
  have hc1 : (i + ns - r) % N = (i - o) % N := by
    apply Int.emod_eq_emod_iff_emod_sub_eq_zero.mpr
    apply Int.emod_eq_zero_of_dvd
    have heq : (i + ns - r) - (i - o) = (o + ns) - r := by ring
    rw [heq]; exact hdvd0
  have hc2 : (i + ns - (r + N)) % N = (i - o) % N := by
    apply Int.emod_eq_emod_iff_emod_sub_eq_zero.mpr
    apply Int.emod_eq_zero_of_dvd
    have heq : (i + ns - (r + N)) - (i - o) = ((o + ns) - r) - N := by ring
    rw [heq]
    exact dvd_sub hdvd0 dvd_rfl
  have hcirc1 : circularDist N i o ≤ ((i + ns - r).natAbs : ℤ) := by
    have h1 := min_emod_le_natAbs (i + ns - r) hN
    have h2 := min_emod_congr _ (i - o) N hc1
    have h3 : -(i - o) = o - i := by ring
    rw [h2, h3] at h1
    exact h1
  have hcirc2 : circularDist N i o ≤ ((i + ns - (r + N)).natAbs : ℤ) := by
    have h1 := min_emod_le_natAbs (i + ns - (r + N)) hN
    have h2 := min_emod_congr _ (i - o) N hc2
    have h3 : -(i - o) = o - i := by ring
    rw [h2, h3] at h1
    exact h1
  have hcd : codeDist ns o i =
      min (((i + ns) - r).natAbs : ℤ) (((i + ns) - (r + N)).natAbs : ℤ) := by
    rw [codeDist]
    rw [← hNdef, hidx, ← hrdef]
  rw [hcd]
  exact le_min hcirc1 hcirc2

/-- When the circular distance is zero, the distance computed by the code is zero. -/
theorem codeDist_eq_zero_of_circularDist_eq_zero (ns o i : ℤ)
    (hns : 1 ≤ ns) (hlo : -ns ≤ i) (hhi : i ≤ ns)
    (hc : circularDist (2 * ns) i o = 0) : codeDist ns o i = 0 := by
  set N := 2 * ns with hNdef
  have hN : 0 < N := by omega
  have hidx : (i + ns).tmod (N + 1) = i + ns := Int.tmod_eq_of_lt (by omega) (by omega)
  set r := (o + ns).tmod N with hrdef
  have hrb := tmod_bounds (o + ns) hN
  rw [← hrdef] at hrb
  have hdvdio : N ∣ i - o := by
    have ha : 0 ≤ (i - o) % N := Int.emod_nonneg _ (by omega)
    have hb : 0 ≤ (o - i) % N := Int.emod_nonneg _ (by omega)
    rw [circularDist] at hc
    rcases min_eq_iff.mp hc with ⟨h0, _⟩ | ⟨h0, _⟩
    · exact Int.dvd_of_emod_eq_zero h0
    · have := Int.dvd_of_emod_eq_zero h0
      have heq : i - o = -(o - i) := by ring
      rw [heq]
      exact dvd_neg.mpr this
  have hdvd0 : N ∣ (o + ns) - r := by
    refine ⟨(o + ns).tdiv N, ?_⟩
    have h := Int.tmod_add_tdiv (o + ns) N
    linarith
  have hdvd1 : N ∣ (i + ns) - r := by
    have heq : (i + ns) - r = (i - o) + ((o + ns) - r) := by ring
    rw [heq]
    exact dvd_add hdvdio hdvd0
  obtain ⟨k, hk⟩ := hdvd1
  have hkcases : k = 0 ∨ k = 1 := by
    have hb1 : -N < (i + ns) - r := by omega
    have hb2 : (i + ns) - r < 2 * N := by omega
    rw [hk] at hb1 hb2
    rcases lt_trichotomy k 0 with hneg | hzero | hpos
    · exfalso
      have : N * k ≤ N * (-1) := by
        apply mul_le_mul_of_nonneg_left (by omega) hN.le
      nlinarith
    · left; exact hzero
    · rcases lt_or_le k 2 with h2 | h2
      · right; omega
      · exfalso
        have : N * 2 ≤ N * k := by
          apply mul_le_mul_of_nonneg_left h2 hN.le
        nlinarith
  have hcd : codeDist ns o i =
      min (((i + ns) - r).natAbs : ℤ) (((i + ns) - (r + N)).natAbs : ℤ) := by
    rw [codeDist]
    rw [← hNdef, hidx, ← hrdef]
  rcases hkcases with h0 | h1
  · rw [h0, mul_zero] at hk
    rw [hcd, hk]
    have : ((i + ns) - (r + N)) = -N := by omega
    rw [this]
    simp
  · rw [h1, mul_one] at hk
    have h2 : ((i + ns) - (r + N)) = 0 := by omega
    rw [hcd, h2, hk]
    simp

/-- C1 (amended): with the weight window enabled, for parameters in range
and signed step index `i` between `-num_steps` and `num_steps`, the weight
is zero whenever the minimal circular distance from `i` to
`weight_window_offset` (mod `2*num_steps`) exceeds the window width, it is
one when that circular distance is zero, and in general it equals
`max(0, 1 - dist/width)` where `dist` is the distance the code computes:
the minimum of `|idx - offsetIdx|` and `|idx - offsetIdx - 2*num_steps|`,
with `idx = i + num_steps` and `offsetIdx` the C truncated remainder of
`weight_window_offset + num_steps` by `2*num_steps`.  This `dist` is an
over-approximation of the circular distance and differs from it for
offsets whose window wraps in the direction the code does not test. -/
theorem getStepWeight_window_spec (ns w o i : ℤ)
    (hns : 1 ≤ ns) (hw : 1 ≤ w) (hlo : -ns ≤ i) (hhi : i ≤ ns) :
    (w < circularDist (2 * ns) i o → getStepWeight true ns w o i = 0) ∧
    (circularDist (2 * ns) i o = 0 → getStepWeight true ns w o i = 1) ∧
    getStepWeight true ns w o i = max 0 (1 - (codeDist ns o i : ℚ) / (w : ℚ)) := by
  have hwq : (0 : ℚ) < (w : ℚ) := by exact_mod_cast (by omega : (0 : ℤ) < w)
  refine ⟨?_, ?_, ?_⟩
  · intro hfar
    have hge := circularDist_le_codeDist ns o i hns hlo hhi
    rw [getStepWeight_true_eq, if_pos (by omega)]
  · intro hzero
    have hcd := codeDist_eq_zero_of_circularDist_eq_zero ns o i hns hlo hhi hzero
    rw [getStepWeight_true_eq, hcd, if_neg (by omega)]
    norm_num
  · by_cases hlt : w < codeDist ns o i
    · rw [getStepWeight_true_eq, if_pos hlt]
      have hdq : (1 : ℚ) < (codeDist ns o i : ℚ) / (w : ℚ) := by
        rw [one_lt_div hwq]
        exact_mod_cast hlt
      rw [max_eq_left (by linarith)]
    · rw [getStepWeight_true_eq, if_neg hlt]
      have hdq : (codeDist ns o i : ℚ) / (w : ℚ) ≤ 1 := by
        rw [div_le_one hwq]
        exact_mod_cast (by omega : codeDist ns o i ≤ w)
      rw [max_eq_right (by linarith)]

/-- C1 witness: the amended statement applied at
`num_steps = 15`, `width = 3`, `offset = 0`, `i = 1`. -/
theorem getStepWeight_window_spec_witness :
    (3 < circularDist (2 * 15) 1 0 → getStepWeight true 15 3 0 1 = 0) ∧
    (circularDist (2 * 15) 1 0 = 0 → getStepWeight true 15 3 0 1 = 1) ∧
    getStepWeight true 15 3 0 1 = max 0 (1 - (codeDist 15 0 1 : ℚ) / (3 : ℚ)) :=
  getStepWeight_window_spec 15 3 0 1 (by decide) (by decide) (by decide) (by decide)

/-- C1 counterexample: at `num_steps = 15`, `width = 3`,
`weight_window_offset = 14`, step index `i = -15`, the minimal circular
distance from `i` to the offset modulo `30` is `1`, so the claimed formula
`max(0, 1 - dist/width)` demands the weight `2/3`, but the code computes
weight `0`. -/
theorem getStepWeight_circular_claim_false :
    getStepWeight true 15 3 14 (-15) = 0 ∧
    circularDist (2 * 15) (-15) 14 = 1 ∧
    getStepWeight true 15 3 14 (-15) ≠
      max 0 (1 - (circularDist (2 * 15) (-15) 14 : ℚ) / (3 : ℚ)) := by
  refine ⟨by decide, by decide, ?_⟩
  have h1 : getStepWeight true 15 3 14 (-15) = 0 := by decide
  have h2 : circularDist (2 * 15) (-15) 14 = 1 := by decide
  rw [h1, h2]
  norm_num

/-! ## Images and the vector-field sampler
(lic.cpp, `LICProcessor::sampleImageData`, lines 69-78) -/

/-- Embedding of `OfxRectI`: the integer bounding rectangle
`[x1, x2) x [y1, y2)` of an image. -/
structure OfxRectI where
  x1 : ℤ
  y1 : ℤ
  x2 : ℤ
  y2 : ℤ

/-- Embedding of an `OFX::Image` used as a vector-field input: bounds plus
the stored float value of the first component at each integer pixel
address (the kernel reads `*(float *) img->getPixelAddress(x_, y_)`). -/
structure Image where
  bounds : OfxRectI
  data : ℤ → ℤ → ℝ

/-- Embedding of the C++ float-to-int conversion `int(x)`: truncation
toward zero. -/
noncomputable def truncToInt (x : ℝ) : ℤ := if 0 ≤ x then ⌊x⌋ else ⌈x⌉

/-- Embedding of `LICProcessor::sampleImageData`: truncate the real
coordinates to integers, clamp each into `[x1, x2-1]` and `[y1, y2-1]`,
and read the stored value there. -/
noncomputable def sampleImageData (img : Image) (x y : ℝ) : ℝ :=
  let x_ := clamp (truncToInt x) img.bounds.x1 (img.bounds.x2 - 1)
  let y_ := clamp (truncToInt y) img.bounds.y1 (img.bounds.y2 - 1)
  img.data x_ y_

/-- Modelled from the words of the spec (section 4.2): the same sampler,
but converting the coordinates to the nearest integer pixel.  This is the
comparison point for the claim about `sampleImageData`; it is not part of
the code embedding. -/
noncomputable def sampleImageDataNearest (img : Image) (x y : ℝ) : ℝ :=
  let x_ := clamp (round x) img.bounds.x1 (img.bounds.x2 - 1)
  let y_ := clamp (round y) img.bounds.y1 (img.bounds.y2 - 1)
  img.data x_ y_

/-! ## The processor state
(lic.cpp, `LICProcessor` fields, lines 53-63, and
`sampleRandomData`, lines 65-67) -/

/-- Embedding of the `LICProcessor` state at the start of
`multiThreadProcessImages`: the two vector-field images, the noise
primitive `SimplexNoise::noise` (an external pure function of two floats,
kept abstract), and the parameters. -/
structure LICProcessor where
  vectorXImg : Image
  vectorYImg : Image
  noise : ℝ → ℝ → ℝ
  frequency : ℝ
  num_steps : ℤ
  use_weight_window : Bool
  weight_window_width : ℤ
  weight_window_offset : ℤ

/-- Embedding of `LICProcessor::sampleRandomData`. -/
noncomputable def sampleRandomData (p : LICProcessor) (x y : ℝ) : ℝ :=
  0.5 + 0.5 * p.noise (p.frequency * x) (p.frequency * y)

/-- The step weight of the processor, reading its parameter fields. -/
def LICProcessor.weight (p : LICProcessor) (signedIdx : ℤ) : ℚ :=
  getStepWeight p.use_weight_window p.num_steps p.weight_window_width
    p.weight_window_offset signedIdx

/-! ## One integration pass
(lic.cpp, `multiThreadProcessImages` inner loops, lines 154-231) -/

/-- The per-pass mutable state of the integration loops: current position
`(px, py)`, the last used direction `(uxLast, uyLast)` (`ux_last`,
`uy_last` in the code), the frozen flag `use_last`, and the running
accumulators `acc` and `weightSum`. -/
structure StepState where
  px : ℝ
  py : ℝ
  uxLast : ℝ
  uyLast : ℝ
  useLast : Bool
  acc : ℝ
  weightSum : ℝ

/-- The direction used to advance the position in one loop iteration:
sample the field (or reuse the last direction in frozen mode), normalize
by `sqrt(ux^2+uy^2)`, and fall back to the last direction when the result
is degenerate.  In this exact-arithmetic model the only way the C++ test
`isnan(ux) || isnan(uy) || (ux == 0 && uy == 0)` fires on a real-valued
field is the zero vector, and Lean division by `sqrt 0 = 0` yields `0`,
so the test becomes `ux = 0 ∧ uy = 0` on the normalized vector. -/
noncomputable def stepDir (p : LICProcessor) (s : StepState) : ℝ × ℝ :=
  let ux0 := if s.useLast then s.uxLast else sampleImageData p.vectorXImg s.px s.py
  let uy0 := if s.useLast then s.uyLast else sampleImageData p.vectorYImg s.px s.py
  let umag := Real.sqrt (ux0 * ux0 + uy0 * uy0)
  let ux1 := ux0 / umag
  let uy1 := uy0 / umag
  if ux1 = 0 ∧ uy1 = 0 then (s.uxLast, s.uyLast) else (ux1, uy1)

open Classical in
/-- Whether the degeneracy fallback fires in one loop iteration
(the branch that sets `use_last = true`). -/
noncomputable def stepFrozen (p : LICProcessor) (s : StepState) : Bool :=
  let ux0 := if s.useLast then s.uxLast else sampleImageData p.vectorXImg s.px s.py
  let uy0 := if s.useLast then s.uyLast else sampleImageData p.vectorYImg s.px s.py
  let umag := Real.sqrt (ux0 * ux0 + uy0 * uy0)
  if ux0 / umag = 0 ∧ uy0 / umag = 0 then true else s.useLast

/-- One iteration of an integration loop, at loop counter `i`, advancing
with direction sign `sign` (`+1` for the forward loop `px += ux`, `-1`
for the backward loop `px -= ux`) and accumulating the noise sample at
the new position with the step weight `getStepWeight(sign*(i+1))`. -/
noncomputable def licStep (p : LICProcessor) (sign : ℤ) (i : ℕ) (s : StepState) : StepState :=
  let d := stepDir p s
  let px2 := s.px + (sign : ℝ) * d.1
  let py2 := s.py + (sign : ℝ) * d.2
  let w : ℚ := p.weight (sign * ((i : ℤ) + 1))
  { px := px2, py := py2, uxLast := d.1, uyLast := d.2,
    useLast := stepFrozen p s,
    acc := s.acc + (w : ℝ) * sampleRandomData p px2 py2,
    weightSum := s.weightSum + (w : ℝ) }

/-- Running the first `n` iterations of an integration loop. -/
noncomputable def licPass (p : LICProcessor) (sign : ℤ) : ℕ → StepState → StepState
  | 0, s => s
  | n + 1, s => licStep p sign n (licPass p sign n s)

/-! ## The per-pixel kernel
(lic.cpp, `multiThreadProcessImages` pixel body, lines 128-252) -/

/-- The raw seed vector X component sampled at the pixel. -/
noncomputable def seedSampleX (p : LICProcessor) (x y : ℤ) : ℝ :=
  sampleImageData p.vectorXImg (x : ℝ) (y : ℝ)

/-- The raw seed vector Y component sampled at the pixel. -/
noncomputable def seedSampleY (p : LICProcessor) (x y : ℤ) : ℝ :=
  sampleImageData p.vectorYImg (x : ℝ) (y : ℝ)

/-- The state at the start of the forward loop: position at the seed,
`ux_last`/`uy_last` initialized to the raw seed vector (`ux_initial`,
`uy_initial` in the code), `use_last = false`, and the accumulators
holding the seed contribution `getStepWeight(0) * noise(seed)`. -/
noncomputable def forwardInit (p : LICProcessor) (x y : ℤ) : StepState :=
  { px := (x : ℝ), py := (y : ℝ),
    uxLast := seedSampleX p x y, uyLast := seedSampleY p x y,
    useLast := false,
    acc := ((p.weight 0 : ℚ) : ℝ) * sampleRandomData p (x : ℝ) (y : ℝ),
    weightSum := ((p.weight 0 : ℚ) : ℝ) }

/-- The state at the start of the backward loop: position and direction
state reset exactly as the code does (`px = px0, py = py0;
ux_last = ux_initial, uy_last = uy_initial; use_last = false`), with the
accumulators carried over from the forward loop. -/
noncomputable def backwardInit (p : LICProcessor) (x y : ℤ) : StepState :=
  let s1 := licPass p 1 p.num_steps.toNat (forwardInit p x y)
  { px := (x : ℝ), py := (y : ℝ),
    uxLast := seedSampleX p x y, uyLast := seedSampleY p x y,
    useLast := false,
    acc := s1.acc, weightSum := s1.weightSum }

/-- An RGBA output pixel (four floats, written to `dstPix[0..3]`). -/
structure RGBA where
  r : ℝ
  g : ℝ
  b : ℝ
  a : ℝ

/-- Embedding of the per-pixel body of `multiThreadProcessImages`: seed
accumulation, the zero-seed-vector test `ux != 0 || uy != 0`, the forward
and backward loops (`num_steps` iterations each), and the final
`value = acc / weightSum` with the transparency test
`weightSum < 0.5`. -/
noncomputable def processPixel (p : LICProcessor) (x y : ℤ) : RGBA :=
  let ux := seedSampleX p x y
  let uy := seedSampleY p x y
  let s2 := licPass p (-1) p.num_steps.toNat (backwardInit p x y)
  let acc := if ux ≠ 0 ∨ uy ≠ 0 then s2.acc else 0
  let ws := if ux ≠ 0 ∨ uy ≠ 0 then s2.weightSum else 0
  if ws < 1 / 2 then ⟨0, 0, 0, 0⟩
  else ⟨acc / ws, acc / ws, acc / ws, 1⟩

/-! ## The tile loop
(lic.cpp, `multiThreadProcessImages`, lines 120-258) -/

/-- A destination buffer: a float value per integer pixel address and
channel (0 = R, 1 = G, 2 = B, 3 = A). -/
def DstImage : Type := ℤ → ℤ → Fin 4 → ℝ

/-- Channel projection of an output pixel, in write order. -/
def rgbaGet (pix : RGBA) : Fin 4 → ℝ
  | 0 => pix.r
  | 1 => pix.g
  | 2 => pix.b
  | 3 => pix.a

/-- Writing the four channels of one destination pixel
(`dstPix[0..3] = ...`). -/
noncomputable def writePixel (dst : DstImage) (x y : ℤ) (pix : RGBA) : DstImage :=
  fun x0 y0 c => if x0 = x ∧ y0 = y then rgbaGet pix c else dst x0 y0 c

/-- The inner column loop over `x = x1 .. x2-1` of one row, with `fuel`
remaining columns starting at column `x`. -/
noncomputable def processRowAux (p : LICProcessor) (y : ℤ) :
    ℕ → ℤ → DstImage → DstImage
  | 0, _, dst => dst
  | n + 1, x, dst => processRowAux p y n (x + 1) (writePixel dst x y (processPixel p x y))

/-- The outer row loop, with `fuel` remaining rows starting at row `y`;
`abortAt y` is the value the host `_effect.abort()` query returns when
polled at the start of row `y` (checked once per row, before the row is
processed). -/
noncomputable def processTileAux (p : LICProcessor) (win : OfxRectI) (abortAt : ℤ → Bool) :
    ℕ → ℤ → DstImage → DstImage
  | 0, _, dst => dst
  | m + 1, y, dst =>
    if abortAt y then dst
    else processTileAux p win abortAt m (y + 1)
      (processRowAux p y (win.x2 - win.x1).toNat win.x1 dst)

/-- Embedding of `LICProcessor::multiThreadProcessImages`: process every
row of the render window `procWindow`, aborting before a row when the
host abort flag is observed. -/
noncomputable def multiThreadProcessImages (p : LICProcessor) (win : OfxRectI)
    (abortAt : ℤ → Bool) (dst : DstImage) : DstImage :=
  processTileAux p win abortAt (win.y2 - win.y1).toNat win.y1 dst

/-! ## Claim C2: the vector-field sampler -/

/-- The clamped value lies between the bounds whenever they are ordered. -/
theorem clamp_mem {T : Type} [LinearOrder T] (v lo hi : T) (h : lo ≤ hi) :
    lo ≤ clamp v lo hi ∧ clamp v lo hi ≤ hi := by
  rw [clamp]
  split_ifs with h1 h2
  · exact ⟨le_refl lo, h⟩
  · exact ⟨h, le_refl hi⟩
  · exact ⟨le_of_not_lt h1, le_of_not_lt h2⟩

/-- C2 (amended): for every real coordinate pair and every vector-field
image with non-empty bounds, the sampler converts each coordinate to an
integer by truncation toward zero (the C++ cast `int(x)`), clamps each
independently into `[x1, x2-1]` and `[y1, y2-1]`, and returns the stored
value at that clamped address; the resulting access is always within the
image bounds. -/
theorem sampleImageData_spec (img : Image) (x y : ℝ)
    (hx : img.bounds.x1 < img.bounds.x2) (hy : img.bounds.y1 < img.bounds.y2) :
    sampleImageData img x y =
      img.data (clamp (truncToInt x) img.bounds.x1 (img.bounds.x2 - 1))
        (clamp (truncToInt y) img.bounds.y1 (img.bounds.y2 - 1)) ∧
    img.bounds.x1 ≤ clamp (truncToInt x) img.bounds.x1 (img.bounds.x2 - 1) ∧
    clamp (truncToInt x) img.bounds.x1 (img.bounds.x2 - 1) < img.bounds.x2 ∧
    img.bounds.y1 ≤ clamp (truncToInt y) img.bounds.y1 (img.bounds.y2 - 1) ∧
    clamp (truncToInt y) img.bounds.y1 (img.bounds.y2 - 1) < img.bounds.y2 := by
  have hxm := clamp_mem (truncToInt x) img.bounds.x1 (img.bounds.x2 - 1) (by omega)
  have hym := clamp_mem (truncToInt y) img.bounds.y1 (img.bounds.y2 - 1) (by omega)
  exact ⟨rfl, hxm.1, by omega, hym.1, by omega⟩

/-- C2 witness: the amended statement applied to a concrete image with
bounds `[0,10) x [0,10)` storing the column index, at coordinates
`(27/10, 0)`. -/
theorem sampleImageData_spec_witness :
    sampleImageData ⟨⟨0, 0, 10, 10⟩, fun a _ => (a : ℝ)⟩ (27 / 10) 0 =
      (⟨⟨0, 0, 10, 10⟩, fun a _ => (a : ℝ)⟩ : Image).data
        (clamp (truncToInt (27 / 10)) 0 (10 - 1)) (clamp (truncToInt 0) 0 (10 - 1)) ∧
    (0 : ℤ) ≤ clamp (truncToInt (27 / 10)) 0 (10 - 1) ∧
    clamp (truncToInt (27 / 10)) 0 (10 - 1) < 10 ∧
    (0 : ℤ) ≤ clamp (truncToInt 0) 0 (10 - 1) ∧
    clamp (truncToInt 0) 0 (10 - 1) < 10 :=
  sampleImageData_spec ⟨⟨0, 0, 10, 10⟩, fun a _ => (a : ℝ)⟩ (27 / 10) 0
    (by decide) (by decide)

/-- C2 counterexample: the sampler does not use the nearest integer
pixel.  At `x = 2.7` on an image storing its column index over
`[0,10) x [0,10)`, the code truncates to column `2` and returns `2`,
while the nearest integer pixel is column `3` with stored value `3`. -/
theorem sampleImageData_nearest_claim_false :
    sampleImageData ⟨⟨0, 0, 10, 10⟩, fun a _ => (a : ℝ)⟩ (27 / 10) 0 = 2 ∧
    sampleImageDataNearest ⟨⟨0, 0, 10, 10⟩, fun a _ => (a : ℝ)⟩ (27 / 10) 0 = 3 ∧
    (2 : ℝ) ≠ 3 := by
  have ht : truncToInt ((27 : ℝ) / 10) = 2 := by
    rw [truncToInt, if_pos (by norm_num : (0 : ℝ) ≤ 27 / 10), Int.floor_eq_iff]
    norm_num
  have ht0 : truncToInt (0 : ℝ) = 0 := by
    rw [truncToInt, if_pos (by norm_num : (0 : ℝ) ≤ 0)]
    simp
  have hr : round ((27 : ℝ) / 10) = 3 := by
    rw [round_eq, Int.floor_eq_iff]
    norm_num
  have hr0 : round (0 : ℝ) = 0 := by simp
  refine ⟨?_, ?_, by norm_num⟩
  · rw [sampleImageData]
    dsimp only
    rw [ht]
    norm_num [clamp]
  · rw [sampleImageDataNearest]
    dsimp only
    rw [hr]
    norm_num [clamp]

/-! ## Claims C9 and C5: output shape of the per-pixel kernel -/

/-- C9: for every processor state and every pixel, the alpha component of
the written output pixel is exactly `0` or exactly `1`. -/
theorem processPixel_alpha_dichotomy (p : LICProcessor) (x y : ℤ) :
    (processPixel p x y).a = 0 ∨ (processPixel p x y).a = 1 := by
  rw [processPixel]
  split_ifs <;> simp

/-- C5: if both sampled seed vector components are exactly zero, the
output pixel is exactly `(0, 0, 0, 0)`, for every noise state and every
parameter set. -/
theorem processPixel_zero_seed (p : LICProcessor) (x y : ℤ)
    (hx : seedSampleX p x y = 0) (hy : seedSampleY p x y = 0) :
    processPixel p x y = ⟨0, 0, 0, 0⟩ := by
  rw [processPixel]
  rw [hx, hy]
  norm_num

/-- A concrete processor whose vector field is identically zero. -/
noncomputable def zeroFieldProcessor : LICProcessor :=
  { vectorXImg := ⟨⟨0, 0, 8, 8⟩, fun _ _ => 0⟩,
    vectorYImg := ⟨⟨0, 0, 8, 8⟩, fun _ _ => 0⟩,
    noise := fun _ _ => 0,
    frequency := 1, num_steps := 15, use_weight_window := false,
    weight_window_width := 10, weight_window_offset := 0 }

/-- C5 witness: the zero-seed statement applied to the zero vector field
at pixel `(3, 4)`. -/
theorem processPixel_zero_seed_witness :
    processPixel zeroFieldProcessor 3 4 = ⟨0, 0, 0, 0⟩ :=
  processPixel_zero_seed zeroFieldProcessor 3 4
    (by simp [seedSampleX, sampleImageData, zeroFieldProcessor])
    (by simp [seedSampleY, sampleImageData, zeroFieldProcessor])

/-! ## Claim C3: unit advance of the integration passes -/

/-- Unfolding of one loop iteration. -/
theorem licPass_succ (p : LICProcessor) (sign : ℤ) (n : ℕ) (s : StepState) :
    licPass p sign (n + 1) s = licStep p sign n (licPass p sign n s) := rfl

/-- The pass with no iterations is the identity. -/
theorem licPass_zero (p : LICProcessor) (sign : ℤ) (s : StepState) :
    licPass p sign 0 s = s := rfl

/-- The direction recorded as last used after one iteration. -/
theorem licStep_uxLast (p : LICProcessor) (sign : ℤ) (i : ℕ) (s : StepState) :
    (licStep p sign i s).uxLast = (stepDir p s).1 := rfl

/-- The direction recorded as last used after one iteration. -/
theorem licStep_uyLast (p : LICProcessor) (sign : ℤ) (i : ℕ) (s : StepState) :
    (licStep p sign i s).uyLast = (stepDir p s).2 := rfl

/-- The position update of one iteration. -/
theorem licStep_px (p : LICProcessor) (sign : ℤ) (i : ℕ) (s : StepState) :
    (licStep p sign i s).px = s.px + (sign : ℝ) * (stepDir p s).1 := rfl

/-- The position update of one iteration. -/
theorem licStep_py (p : LICProcessor) (sign : ℤ) (i : ℕ) (s : StepState) :
    (licStep p sign i s).py = s.py + (sign : ℝ) * (stepDir p s).2 := rfl

/-- Normalizing a vector that is not the zero vector yields a unit vector. -/
theorem normalized_sq_sum (a b : ℝ) (h : ¬(a = 0 ∧ b = 0)) :
    (a / Real.sqrt (a * a + b * b)) ^ 2 + (b / Real.sqrt (a * a + b * b)) ^ 2 = 1 := by
  have hpos : 0 < a * a + b * b := by
    rcases not_and_or.mp h with h1 | h1
    · have := mul_self_pos.mpr h1
      nlinarith [mul_self_nonneg b]
    · have := mul_self_pos.mpr h1
      nlinarith [mul_self_nonneg a]
  have hs : 0 < Real.sqrt (a * a + b * b) := Real.sqrt_pos.mpr hpos
  have hsq : (Real.sqrt (a * a + b * b)) ^ 2 = a * a + b * b := Real.sq_sqrt hpos.le
  field_simp
  nlinarith [hsq]

/-- Normalizing a vector that is not the zero vector never yields the
zero vector. -/
theorem normalized_ne_zero (a b : ℝ) (h : ¬(a = 0 ∧ b = 0)) :
    ¬(a / Real.sqrt (a * a + b * b) = 0 ∧ b / Real.sqrt (a * a + b * b) = 0) := by
  have hpos : 0 < a * a + b * b := by
    rcases not_and_or.mp h with h1 | h1
    · have := mul_self_pos.mpr h1
      nlinarith [mul_self_nonneg b]
    · have := mul_self_pos.mpr h1
      nlinarith [mul_self_nonneg a]
  have hs : 0 < Real.sqrt (a * a + b * b) := Real.sqrt_pos.mpr hpos
  rcases not_and_or.mp h with h1 | h1
  · intro hcontra
    exact h1 ((div_eq_zero_iff.mp hcontra.1).resolve_right hs.ne')
  · intro hcontra
    exact h1 ((div_eq_zero_iff.mp hcontra.2).resolve_right hs.ne')

/-- If the last used direction is a unit vector, the direction used by the
next iteration is a unit vector: every branch returns either the last
direction or the normalization of a vector that is not the zero vector. -/
theorem stepDir_unit_of_unitLast (p : LICProcessor) (s : StepState)
    (h : s.uxLast ^ 2 + s.uyLast ^ 2 = 1) :
    (stepDir p s).1 ^ 2 + (stepDir p s).2 ^ 2 = 1 := by
  rw [stepDir]
  set ux0 := if s.useLast then s.uxLast else sampleImageData p.vectorXImg s.px s.py with hux0
  set uy0 := if s.useLast then s.uyLast else sampleImageData p.vectorYImg s.px s.py with huy0
  by_cases hd : ux0 / Real.sqrt (ux0 * ux0 + uy0 * uy0) = 0 ∧
      uy0 / Real.sqrt (ux0 * ux0 + uy0 * uy0) = 0
  · rw [if_pos hd]
    exact h
  · rw [if_neg hd]
    apply normalized_sq_sum
    intro hz
    apply hd
    rw [hz.1, hz.2]
    simp

/-- At an iteration that samples the field afresh at a point where the
field is not the zero vector, the direction used is a unit vector. -/
theorem stepDir_unit_of_fresh (p : LICProcessor) (s : StepState)
    (huse : s.useLast = false)
    (h : ¬(sampleImageData p.vectorXImg s.px s.py = 0 ∧
        sampleImageData p.vectorYImg s.px s.py = 0)) :
    (stepDir p s).1 ^ 2 + (stepDir p s).2 ^ 2 = 1 := by
  rw [stepDir, huse]
  simp only [Bool.false_eq_true, if_false]
  rw [if_neg (normalized_ne_zero _ _ h)]
  exact normalized_sq_sum _ _ h

/-- Along a pass started at a point where the field is not the zero
vector, the direction used at every iteration is a unit vector. -/
theorem licPass_stepDir_unit (p : LICProcessor) (sign : ℤ) (s0 : StepState)
    (huse : s0.useLast = false)
    (hseed : ¬(sampleImageData p.vectorXImg s0.px s0.py = 0 ∧
        sampleImageData p.vectorYImg s0.px s0.py = 0)) :
    ∀ i : ℕ, (stepDir p (licPass p sign i s0)).1 ^ 2 +
      (stepDir p (licPass p sign i s0)).2 ^ 2 = 1 := by
  intro i
  induction i with
  | zero =>
    rw [licPass_zero]
    exact stepDir_unit_of_fresh p s0 huse hseed
  | succ n ih =>
    apply stepDir_unit_of_unitLast
    rw [licPass_succ, licStep_uxLast, licStep_uyLast]
    exact ih

/-- C3 (amended): in every forward (`sign = 1`) and backward
(`sign = -1`) integration pass for a pixel whose sampled seed vector is
not `(0, 0)`, started as the code starts it (position at the seed,
`use_last = false`, and `ux_last`/`uy_last` initialized to the raw,
un-normalized seed vector), every iteration advances the position by a
unit vector: consecutive positions are at Euclidean distance exactly 1.
The first iteration re-samples the seed position, where the field is not
zero, so the raw initialization of the last-direction state is never used
as an advance direction. -/
theorem streamline_unit_advance (p : LICProcessor) (x y : ℤ) (sign : ℤ) (s0 : StepState)
    (hsign : sign = 1 ∨ sign = -1)
    (hseed : ¬(seedSampleX p x y = 0 ∧ seedSampleY p x y = 0))
    (hpx : s0.px = (x : ℝ)) (hpy : s0.py = (y : ℝ))
    (_hux : s0.uxLast = seedSampleX p x y) (_huy : s0.uyLast = seedSampleY p x y)
    (huse : s0.useLast = false) :
    ∀ i : ℕ,
      ((licPass p sign (i + 1) s0).px - (licPass p sign i s0).px) ^ 2 +
        ((licPass p sign (i + 1) s0).py - (licPass p sign i s0).py) ^ 2 = 1 := by
  intro i
  have hseed' : ¬(sampleImageData p.vectorXImg s0.px s0.py = 0 ∧
      sampleImageData p.vectorYImg s0.px s0.py = 0) := by
    rw [hpx, hpy]
    exact hseed
  have hd := licPass_stepDir_unit p sign s0 huse hseed' i
  have hs2 : ((sign : ℝ)) ^ 2 = 1 := by
    rcases hsign with h | h <;> rw [h] <;> norm_num
  rw [licPass_succ, licStep_px, licStep_py]
  linear_combination ((sign : ℝ)) ^ 2 * hd + hs2

/-- A concrete processor whose vector field is the constant `(1, 0)`. -/
noncomputable def unitXProcessor : LICProcessor :=
  { vectorXImg := ⟨⟨0, 0, 8, 8⟩, fun _ _ => 1⟩,
    vectorYImg := ⟨⟨0, 0, 8, 8⟩, fun _ _ => 0⟩,
    noise := fun _ _ => 0,
    frequency := 1, num_steps := 1, use_weight_window := false,
    weight_window_width := 10, weight_window_offset := 0 }

/-- C3 witness: the unit-advance statement applied to the constant field
`(1, 0)` at pixel `(0, 0)`, forward pass, first step. -/
theorem streamline_unit_advance_witness :
    ((licPass unitXProcessor 1 (0 + 1) (forwardInit unitXProcessor 0 0)).px -
        (licPass unitXProcessor 1 0 (forwardInit unitXProcessor 0 0)).px) ^ 2 +
      ((licPass unitXProcessor 1 (0 + 1) (forwardInit unitXProcessor 0 0)).py -
        (licPass unitXProcessor 1 0 (forwardInit unitXProcessor 0 0)).py) ^ 2 = 1 :=
  streamline_unit_advance unitXProcessor 0 0 1 (forwardInit unitXProcessor 0 0)
    (Or.inl rfl)
    (by simp [seedSampleX, seedSampleY, sampleImageData, unitXProcessor])
    rfl rfl rfl rfl rfl 0

/-- A concrete processor whose vector field is the constant `(2, 0)`,
whose seed vector is therefore not a unit vector. -/
noncomputable def twoXProcessor : LICProcessor :=
  { vectorXImg := ⟨⟨0, 0, 8, 8⟩, fun _ _ => 2⟩,
    vectorYImg := ⟨⟨0, 0, 8, 8⟩, fun _ _ => 0⟩,
    noise := fun _ _ => 0,
    frequency := 1, num_steps := 1, use_weight_window := false,
    weight_window_width := 10, weight_window_offset := 0 }

/-- C3 counterexample: on the constant field `(2, 0)` at pixel `(0, 0)`,
both passes initialize their last-direction state to the raw seed vector
component `2`, while the normalized seed vector component is `1`; the
state is therefore not initialized to the normalized seed vector as the
claim states. -/
theorem pass_init_not_seed_normalized :
    (forwardInit twoXProcessor 0 0).uxLast = 2 ∧
    (backwardInit twoXProcessor 0 0).uxLast = 2 ∧
    seedSampleX twoXProcessor 0 0 /
      Real.sqrt (seedSampleX twoXProcessor 0 0 * seedSampleX twoXProcessor 0 0 +
        seedSampleY twoXProcessor 0 0 * seedSampleY twoXProcessor 0 0) = 1 ∧
    (2 : ℝ) ≠ 1 := by
  have h2 : seedSampleX twoXProcessor 0 0 = 2 := by
    simp [seedSampleX, sampleImageData, twoXProcessor]
  have h0 : seedSampleY twoXProcessor 0 0 = 0 := by
    simp [seedSampleY, sampleImageData, twoXProcessor]
  refine ⟨?_, ?_, ?_, by norm_num⟩
  · show seedSampleX twoXProcessor 0 0 = 2
    exact h2
  · show seedSampleX twoXProcessor 0 0 = 2
    exact h2
  · rw [h2, h0]
    rw [show (2 : ℝ) * 2 + 0 * 0 = 2 ^ 2 by norm_num,
      Real.sqrt_sq (by norm_num : (0 : ℝ) ≤ 2)]
    norm_num

/-! ## Claim C6: plain averaging without the weight window -/

/-- With the weight window disabled, every step weight is `1`. -/
theorem weight_of_no_window (p : LICProcessor) (h : p.use_weight_window = false) (i : ℤ) :
    p.weight i = 1 := by
  rw [LICProcessor.weight, getStepWeight, if_pos h]

/-- The accumulator update of one iteration. -/
theorem licStep_acc (p : LICProcessor) (sign : ℤ) (i : ℕ) (s : StepState) :
    (licStep p sign i s).acc = s.acc +
      ((p.weight (sign * ((i : ℤ) + 1)) : ℚ) : ℝ) *
        sampleRandomData p (licStep p sign i s).px (licStep p sign i s).py := rfl

/-- The weight-sum update of one iteration. -/
theorem licStep_weightSum (p : LICProcessor) (sign : ℤ) (i : ℕ) (s : StepState) :
    (licStep p sign i s).weightSum = s.weightSum +
      ((p.weight (sign * ((i : ℤ) + 1)) : ℚ) : ℝ) := rfl

/-- The noise values sampled along the first `n` iterations of a pass:
each iteration samples the noise at the position it has just advanced
to. -/
noncomputable def passNoiseValues (p : LICProcessor) (sign : ℤ) : ℕ → StepState → List ℝ
  | 0, _ => []
  | n + 1, s => passNoiseValues p sign n s ++
      [sampleRandomData p (licPass p sign (n + 1) s).px (licPass p sign (n + 1) s).py]

/-- With the weight window disabled, a pass adds the plain sum of its
noise samples to the accumulator and adds one to the weight sum per
iteration. -/
theorem licPass_acc_no_window (p : LICProcessor) (h : p.use_weight_window = false)
    (sign : ℤ) (s0 : StepState) :
    ∀ n : ℕ, (licPass p sign n s0).acc = s0.acc + (passNoiseValues p sign n s0).sum ∧
      (licPass p sign n s0).weightSum = s0.weightSum + n := by
  intro n
  induction n with
  | zero =>
    rw [licPass_zero, passNoiseValues]
    norm_num
  | succ m ih =>
    constructor
    · rw [passNoiseValues, List.sum_append, List.sum_singleton, licPass_succ,
        licStep_acc, weight_of_no_window p h, ih.1]
      push_cast
      ring
    · rw [licPass_succ, licStep_weightSum, weight_of_no_window p h, ih.2]
      push_cast
      ring

/-- The sum of all noise samples one pixel collects: the seed sample plus
the samples of the forward pass and of the backward pass. -/
noncomputable def collectedNoiseSum (p : LICProcessor) (x y : ℤ) : ℝ :=
  sampleRandomData p (x : ℝ) (y : ℝ) +
    (passNoiseValues p 1 p.num_steps.toNat (forwardInit p x y)).sum +
    (passNoiseValues p (-1) p.num_steps.toNat (backwardInit p x y)).sum

/-- C6: with the weight window disabled (so every step weight is `1`, see
`weight_of_no_window`), a pixel whose seed vector is not `(0, 0)` emits
the unweighted arithmetic mean of all `2*num_steps + 1` collected noise
samples, with alpha `1`. -/
theorem processPixel_uniform_mean (p : LICProcessor) (x y : ℤ)
    (hw : p.use_weight_window = false) (hn : 1 ≤ p.num_steps)
    (hseed : ¬(seedSampleX p x y = 0 ∧ seedSampleY p x y = 0)) :
    processPixel p x y =
      ⟨collectedNoiseSum p x y / (2 * (p.num_steps : ℝ) + 1),
        collectedNoiseSum p x y / (2 * (p.num_steps : ℝ) + 1),
        collectedNoiseSum p x y / (2 * (p.num_steps : ℝ) + 1), 1⟩ := by
  have hnn : ((p.num_steps.toNat : ℤ)) = p.num_steps := Int.toNat_of_nonneg (by omega)
  have hnr : ((p.num_steps.toNat : ℝ)) = (p.num_steps : ℝ) := by
    exact_mod_cast hnn
  have hfwd := licPass_acc_no_window p hw 1 (forwardInit p x y) p.num_steps.toNat
  have hbwd := licPass_acc_no_window p hw (-1) (backwardInit p x y) p.num_steps.toNat
  have hfw0 : (forwardInit p x y).acc = sampleRandomData p (x : ℝ) (y : ℝ) := by
    rw [forwardInit]
    rw [weight_of_no_window p hw]
    norm_num
  have hfw1 : (forwardInit p x y).weightSum = 1 := by
    rw [forwardInit]
    rw [weight_of_no_window p hw]
    norm_num
  have hback_acc : (backwardInit p x y).acc =
      (licPass p 1 p.num_steps.toNat (forwardInit p x y)).acc := rfl
  have hback_ws : (backwardInit p x y).weightSum =
      (licPass p 1 p.num_steps.toNat (forwardInit p x y)).weightSum := rfl
  have hacc : (licPass p (-1) p.num_steps.toNat (backwardInit p x y)).acc =
      collectedNoiseSum p x y := by
    rw [collectedNoiseSum, hbwd.1, hback_acc, hfwd.1, hfw0]
  have hws : (licPass p (-1) p.num_steps.toNat (backwardInit p x y)).weightSum =
      2 * (p.num_steps : ℝ) + 1 := by
    rw [hbwd.2, hback_ws, hfwd.2, hfw1, hnr]
    ring
  have hcond : seedSampleX p x y ≠ 0 ∨ seedSampleY p x y ≠ 0 := not_and_or.mp hseed
  have hwspos : ¬((2 : ℝ) * (p.num_steps : ℝ) + 1 < 1 / 2) := by
    have : (1 : ℝ) ≤ (p.num_steps : ℝ) := by exact_mod_cast hn
    nlinarith
  rw [processPixel, if_pos hcond, if_pos hcond, hacc, hws, if_neg hwspos]

/-- C6 witness: the mean statement applied to the constant field `(1, 0)`
processor at pixel `(0, 0)`. -/
theorem processPixel_uniform_mean_witness :
    processPixel unitXProcessor 0 0 =
      ⟨collectedNoiseSum unitXProcessor 0 0 / (2 * ((unitXProcessor.num_steps : ℤ) : ℝ) + 1),
        collectedNoiseSum unitXProcessor 0 0 / (2 * ((unitXProcessor.num_steps : ℤ) : ℝ) + 1),
        collectedNoiseSum unitXProcessor 0 0 / (2 * ((unitXProcessor.num_steps : ℤ) : ℝ) + 1),
        1⟩ :=
  processPixel_uniform_mean unitXProcessor 0 0 rfl (le_refl 1)
    (by simp [seedSampleX, seedSampleY, sampleImageData, unitXProcessor])

/-! ## Claim C7: the uniform field scenario -/

/-- C7: for a vector field that is `(1, 0)` at every pixel, with
`num_steps = 1` and the weight window disabled, every output pixel is the
average of exactly the three noise samples taken at `(x, y)`, `(x+1, y)`
and `(x-1, y)`, with alpha `1`. -/
theorem processPixel_uniform_field (p : LICProcessor) (x y : ℤ)
    (hX : ∀ a b : ℤ, p.vectorXImg.data a b = 1)
    (hY : ∀ a b : ℤ, p.vectorYImg.data a b = 0)
    (hn : p.num_steps = 1) (hw : p.use_weight_window = false) :
    processPixel p x y =
      ⟨(sampleRandomData p (x : ℝ) (y : ℝ) + sampleRandomData p ((x : ℝ) + 1) (y : ℝ) +
          sampleRandomData p ((x : ℝ) - 1) (y : ℝ)) / 3,
        (sampleRandomData p (x : ℝ) (y : ℝ) + sampleRandomData p ((x : ℝ) + 1) (y : ℝ) +
          sampleRandomData p ((x : ℝ) - 1) (y : ℝ)) / 3,
        (sampleRandomData p (x : ℝ) (y : ℝ) + sampleRandomData p ((x : ℝ) + 1) (y : ℝ) +
          sampleRandomData p ((x : ℝ) - 1) (y : ℝ)) / 3, 1⟩ := by
  have hSX : ∀ u v : ℝ, sampleImageData p.vectorXImg u v = 1 := by
    intro u v
    rw [sampleImageData]
    exact hX _ _
  have hSY : ∀ u v : ℝ, sampleImageData p.vectorYImg u v = 0 := by
    intro u v
    rw [sampleImageData]
    exact hY _ _
  have hstep : ∀ s : StepState, s.useLast = false → stepDir p s = (1, 0) := by
    intro s huse
    rw [stepDir, huse]
    simp only [Bool.false_eq_true, if_false, hSX, hSY]
    norm_num [Real.sqrt_one]
  have hn1 : p.num_steps.toNat = 1 := by rw [hn]; rfl
  have hw1 : ∀ i : ℤ, p.weight i = 1 := weight_of_no_window p hw
  have hf : licPass p 1 p.num_steps.toNat (forwardInit p x y) =
      licStep p 1 0 (forwardInit p x y) := by
    rw [hn1]
    rfl
  have hfd := hstep (forwardInit p x y) rfl
  have hfpx : (licStep p 1 0 (forwardInit p x y)).px = (x : ℝ) + 1 := by
    rw [licStep_px, hfd]
    show (x : ℝ) + ((1 : ℤ) : ℝ) * 1 = (x : ℝ) + 1
    push_cast
    ring
  have hfpy : (licStep p 1 0 (forwardInit p x y)).py = (y : ℝ) := by
    rw [licStep_py, hfd]
    show (y : ℝ) + ((1 : ℤ) : ℝ) * 0 = (y : ℝ)
    push_cast
    ring
  have hf0acc : (forwardInit p x y).acc =
      ((p.weight 0 : ℚ) : ℝ) * sampleRandomData p (x : ℝ) (y : ℝ) := rfl
  have hf0ws : (forwardInit p x y).weightSum = ((p.weight 0 : ℚ) : ℝ) := rfl
  have hfacc : (licStep p 1 0 (forwardInit p x y)).acc =
      sampleRandomData p (x : ℝ) (y : ℝ) + sampleRandomData p ((x : ℝ) + 1) (y : ℝ) := by
    rw [licStep_acc, hw1, hfpx, hfpy, hf0acc, hw1]
    norm_num
  have hfws : (licStep p 1 0 (forwardInit p x y)).weightSum = 2 := by
    rw [licStep_weightSum, hw1, hf0ws, hw1]
    norm_num
  have hbd := hstep (backwardInit p x y) rfl
  have hbpx : (licStep p (-1) 0 (backwardInit p x y)).px = (x : ℝ) - 1 := by
    rw [licStep_px, hbd]
    show (x : ℝ) + ((-1 : ℤ) : ℝ) * 1 = (x : ℝ) - 1
    push_cast
    ring
  have hbpy : (licStep p (-1) 0 (backwardInit p x y)).py = (y : ℝ) := by
    rw [licStep_py, hbd]
    show (y : ℝ) + ((-1 : ℤ) : ℝ) * 0 = (y : ℝ)
    push_cast
    ring
  have hbacc0 : (backwardInit p x y).acc = (licStep p 1 0 (forwardInit p x y)).acc := by
    show (licPass p 1 p.num_steps.toNat (forwardInit p x y)).acc = _
    rw [hf]
  have hbws0 : (backwardInit p x y).weightSum =
      (licStep p 1 0 (forwardInit p x y)).weightSum := by
    show (licPass p 1 p.num_steps.toNat (forwardInit p x y)).weightSum = _
    rw [hf]
  have hbacc : (licStep p (-1) 0 (backwardInit p x y)).acc =
      sampleRandomData p (x : ℝ) (y : ℝ) + sampleRandomData p ((x : ℝ) + 1) (y : ℝ) +
        sampleRandomData p ((x : ℝ) - 1) (y : ℝ) := by
    rw [licStep_acc, hw1, hbpx, hbpy, hbacc0, hfacc]
    norm_num
  have hbws : (licStep p (-1) 0 (backwardInit p x y)).weightSum = 3 := by
    rw [licStep_weightSum, hw1, hbws0, hfws]
    norm_num
  have hb : licPass p (-1) p.num_steps.toNat (backwardInit p x y) =
      licStep p (-1) 0 (backwardInit p x y) := by
    rw [hn1]
    rfl
  have hcond : seedSampleX p x y ≠ 0 ∨ seedSampleY p x y ≠ 0 := by
    left
    rw [seedSampleX, hSX]
    norm_num
  rw [processPixel, if_pos hcond, if_pos hcond, hb, hbacc, hbws]
  norm_num

/-- C7 witness: the scenario applied to the constant `(1, 0)` field
processor at pixel `(0, 0)`. -/
theorem processPixel_uniform_field_witness :
    processPixel unitXProcessor 0 0 =
      ⟨(sampleRandomData unitXProcessor ((0 : ℤ) : ℝ) ((0 : ℤ) : ℝ) +
          sampleRandomData unitXProcessor (((0 : ℤ) : ℝ) + 1) ((0 : ℤ) : ℝ) +
          sampleRandomData unitXProcessor (((0 : ℤ) : ℝ) - 1) ((0 : ℤ) : ℝ)) / 3,
        (sampleRandomData unitXProcessor ((0 : ℤ) : ℝ) ((0 : ℤ) : ℝ) +
          sampleRandomData unitXProcessor (((0 : ℤ) : ℝ) + 1) ((0 : ℤ) : ℝ) +
          sampleRandomData unitXProcessor (((0 : ℤ) : ℝ) - 1) ((0 : ℤ) : ℝ)) / 3,
        (sampleRandomData unitXProcessor ((0 : ℤ) : ℝ) ((0 : ℤ) : ℝ) +
          sampleRandomData unitXProcessor (((0 : ℤ) : ℝ) + 1) ((0 : ℤ) : ℝ) +
          sampleRandomData unitXProcessor (((0 : ℤ) : ℝ) - 1) ((0 : ℤ) : ℝ)) / 3, 1⟩ :=
  processPixel_uniform_field unitXProcessor 0 0
    (fun _ _ => rfl) (fun _ _ => rfl) rfl rfl

/-! ## Claim C8: scale invariance of the streamline path -/

/-- The processor with both vector-field components scaled pointwise by
`c` (scaling every non-zero pixel by `c`; zero pixels are unchanged by
the scaling since `c * 0 = 0`). -/
noncomputable def scaleField (p : LICProcessor) (c : ℝ) : LICProcessor :=
  { p with
    vectorXImg := ⟨p.vectorXImg.bounds, fun a b => c * p.vectorXImg.data a b⟩,
    vectorYImg := ⟨p.vectorYImg.bounds, fun a b => c * p.vectorYImg.data a b⟩ }

/-- The frozen flag computed by one iteration. -/
theorem licStep_useLast (p : LICProcessor) (sign : ℤ) (i : ℕ) (s : StepState) :
    (licStep p sign i s).useLast = stepFrozen p s := rfl

/-- Normalization is invariant under scaling the vector by a positive
constant. -/
theorem normalized_scale (c a b : ℝ) (hc : 0 < c) :
    c * a / Real.sqrt (c * a * (c * a) + c * b * (c * b)) = a / Real.sqrt (a * a + b * b) ∧
    c * b / Real.sqrt (c * a * (c * a) + c * b * (c * b)) = b / Real.sqrt (a * a + b * b) := by
  have hkey : Real.sqrt (c * a * (c * a) + c * b * (c * b)) =
      c * Real.sqrt (a * a + b * b) := by
    have h1 : c * a * (c * a) + c * b * (c * b) = (c * c) * (a * a + b * b) := by ring
    rw [h1, Real.sqrt_mul (mul_self_nonneg c), Real.sqrt_mul_self hc.le]
  exact ⟨by rw [hkey, mul_div_mul_left _ _ hc.ne'],
    by rw [hkey, mul_div_mul_left _ _ hc.ne']⟩

/-- Equality of the direction-relevant components of two pass states. -/
def DirEq (s t : StepState) : Prop :=
  s.px = t.px ∧ s.py = t.py ∧ s.useLast = t.useLast ∧
    s.uxLast = t.uxLast ∧ s.uyLast = t.uyLast

/-- One iteration preserves direction-equality of states of two
processors whenever it uses the same direction and frozen flag on both
sides. -/
theorem licStep_dirEq_of (q p : LICProcessor) (sign : ℤ) (i : ℕ) (s t : StepState)
    (hpx : s.px = t.px) (hpy : s.py = t.py)
    (hd : stepDir q s = stepDir p t) (hf : stepFrozen q s = stepFrozen p t) :
    DirEq (licStep q sign i s) (licStep p sign i t) := by
  refine ⟨?_, ?_, ?_, ?_, ?_⟩
  · rw [licStep_px, licStep_px, hpx, hd]
  · rw [licStep_py, licStep_py, hpy, hd]
  · rw [licStep_useLast, licStep_useLast, hf]
  · rw [licStep_uxLast, licStep_uxLast, hd]
  · rw [licStep_uyLast, licStep_uyLast, hd]

/-- Direction-equal states of the scaled and the original processor give
the same used direction and the same frozen flag. -/
theorem stepDir_scale_of_dirEq (p : LICProcessor) (c : ℝ) (hc : 0 < c)
    (s t : StepState) (h : DirEq s t) :
    stepDir (scaleField p c) s = stepDir p t ∧
      stepFrozen (scaleField p c) s = stepFrozen p t := by
  obtain ⟨hpx, hpy, huse, hux, huy⟩ := h
  have hsX : ∀ u v : ℝ, sampleImageData (scaleField p c).vectorXImg u v =
      c * sampleImageData p.vectorXImg u v := fun u v => rfl
  have hsY : ∀ u v : ℝ, sampleImageData (scaleField p c).vectorYImg u v =
      c * sampleImageData p.vectorYImg u v := fun u v => rfl
  have hn := normalized_scale c (sampleImageData p.vectorXImg t.px t.py)
    (sampleImageData p.vectorYImg t.px t.py) hc
  constructor
  · rw [stepDir, stepDir, hpx, hpy, huse, hux, huy]
    cases htu : t.useLast
    · simp only [Bool.false_eq_true, if_false]
      rw [hsX, hsY, hn.1, hn.2]
    · simp only [if_true]
  · rw [stepFrozen, stepFrozen, hpx, hpy, huse, hux, huy]
    cases htu : t.useLast
    · simp only [Bool.false_eq_true, if_false]
      rw [hsX, hsY, hn.1, hn.2]
    · simp only [if_true]

/-- At a pass start state, where the last-direction fields hold the raw
field samples at the current position and the scaled state holds the
`c`-scaled samples, the first iteration uses the same direction and
frozen flag on both sides. -/
theorem stepDir_scale_init (p : LICProcessor) (c : ℝ) (hc : 0 < c)
    (s t : StepState)
    (hpx : s.px = t.px) (hpy : s.py = t.py)
    (hsuse : s.useLast = false) (htuse : t.useLast = false)
    (hux : s.uxLast = c * t.uxLast) (huy : s.uyLast = c * t.uyLast)
    (hxs : t.uxLast = sampleImageData p.vectorXImg t.px t.py)
    (hys : t.uyLast = sampleImageData p.vectorYImg t.px t.py) :
    stepDir (scaleField p c) s = stepDir p t ∧
      stepFrozen (scaleField p c) s = stepFrozen p t := by
  have hsX : ∀ u v : ℝ, sampleImageData (scaleField p c).vectorXImg u v =
      c * sampleImageData p.vectorXImg u v := fun u v => rfl
  have hsY : ∀ u v : ℝ, sampleImageData (scaleField p c).vectorYImg u v =
      c * sampleImageData p.vectorYImg u v := fun u v => rfl
  have hn := normalized_scale c (sampleImageData p.vectorXImg t.px t.py)
    (sampleImageData p.vectorYImg t.px t.py) hc
  constructor
  · rw [stepDir, stepDir, hpx, hpy, hsuse, htuse]
    simp only [Bool.false_eq_true, if_false]
    rw [hsX, hsY, hn.1, hn.2]
    by_cases hdeg : sampleImageData p.vectorXImg t.px t.py = 0 ∧
        sampleImageData p.vectorYImg t.px t.py = 0
    · rw [if_pos, if_pos]
      · rw [hux, huy, hxs, hys, hdeg.1, hdeg.2]
        norm_num
      · exact hdeg.elim (fun h1 h2 => by rw [h1, h2]; norm_num)
      · exact hdeg.elim (fun h1 h2 => by rw [h1, h2]; norm_num)
    · rw [if_neg (normalized_ne_zero _ _ hdeg), if_neg (normalized_ne_zero _ _ hdeg)]
  · rw [stepFrozen, stepFrozen, hpx, hpy, hsuse, htuse]
    simp only [Bool.false_eq_true, if_false]
    rw [hsX, hsY, hn.1, hn.2]

/-- Scaling the vector field by a positive constant does not change the
positions visited by a pass started at matching start states. -/
theorem licPass_scale_core (p : LICProcessor) (c : ℝ) (hc : 0 < c) (sign : ℤ)
    (s t : StepState)
    (hpx : s.px = t.px) (hpy : s.py = t.py)
    (hsuse : s.useLast = false) (htuse : t.useLast = false)
    (hux : s.uxLast = c * t.uxLast) (huy : s.uyLast = c * t.uyLast)
    (hxs : t.uxLast = sampleImageData p.vectorXImg t.px t.py)
    (hys : t.uyLast = sampleImageData p.vectorYImg t.px t.py) :
    ∀ i : ℕ, (licPass (scaleField p c) sign i s).px = (licPass p sign i t).px ∧
      (licPass (scaleField p c) sign i s).py = (licPass p sign i t).py := by
  have key : ∀ i : ℕ,
      DirEq (licPass (scaleField p c) sign (i + 1) s) (licPass p sign (i + 1) t) := by
    intro i
    induction i with
    | zero =>
      rw [licPass_succ, licPass_succ, licPass_zero, licPass_zero]
      have hsd := stepDir_scale_init p c hc s t hpx hpy hsuse htuse hux huy hxs hys
      exact licStep_dirEq_of _ _ _ _ _ _ hpx hpy hsd.1 hsd.2
    | succ m ih =>
      rw [licPass_succ, licPass_succ]
      have hsd := stepDir_scale_of_dirEq p c hc _ _ ih
      exact licStep_dirEq_of _ _ _ _ _ _ ih.1 ih.2.1 hsd.1 hsd.2
  intro i
  cases i with
  | zero =>
    rw [licPass_zero, licPass_zero]
    exact ⟨hpx, hpy⟩
  | succ m => exact ⟨(key m).1, (key m).2.1⟩

/-- C8: multiplying both vector-field components by a positive constant
`c` leaves the traced streamline path unchanged: at every iteration count
`i`, the position reached by the forward and by the backward pass over
the scaled field equals the position reached over the original field
(only unit vectors are used to advance after normalization). -/
theorem streamline_scale_invariant (p : LICProcessor) (c : ℝ) (hc : 0 < c)
    (x y : ℤ) (sign : ℤ) (i : ℕ) :
    ((licPass (scaleField p c) sign i (forwardInit (scaleField p c) x y)).px =
        (licPass p sign i (forwardInit p x y)).px ∧
      (licPass (scaleField p c) sign i (forwardInit (scaleField p c) x y)).py =
        (licPass p sign i (forwardInit p x y)).py) ∧
    ((licPass (scaleField p c) sign i (backwardInit (scaleField p c) x y)).px =
        (licPass p sign i (backwardInit p x y)).px ∧
      (licPass (scaleField p c) sign i (backwardInit (scaleField p c) x y)).py =
        (licPass p sign i (backwardInit p x y)).py) :=
  ⟨licPass_scale_core p c hc sign (forwardInit (scaleField p c) x y) (forwardInit p x y)
      rfl rfl rfl rfl rfl rfl rfl rfl i,
    licPass_scale_core p c hc sign (backwardInit (scaleField p c) x y) (backwardInit p x y)
      rfl rfl rfl rfl rfl rfl rfl rfl i⟩

/-- C8 witness: scale invariance applied to the constant `(1, 0)` field
scaled by `2`, at pixel `(0, 0)`, forward direction, one step. -/
theorem streamline_scale_invariant_witness :
    ((licPass (scaleField unitXProcessor 2) 1 1
          (forwardInit (scaleField unitXProcessor 2) 0 0)).px =
        (licPass unitXProcessor 1 1 (forwardInit unitXProcessor 0 0)).px ∧
      (licPass (scaleField unitXProcessor 2) 1 1
          (forwardInit (scaleField unitXProcessor 2) 0 0)).py =
        (licPass unitXProcessor 1 1 (forwardInit unitXProcessor 0 0)).py) ∧
    ((licPass (scaleField unitXProcessor 2) 1 1
          (backwardInit (scaleField unitXProcessor 2) 0 0)).px =
        (licPass unitXProcessor 1 1 (backwardInit unitXProcessor 0 0)).px ∧
      (licPass (scaleField unitXProcessor 2) 1 1
          (backwardInit (scaleField unitXProcessor 2) 0 0)).py =
        (licPass unitXProcessor 1 1 (backwardInit unitXProcessor 0 0)).py) :=
  streamline_scale_invariant unitXProcessor 2 two_pos 0 0 1 1

/-! ## Claim C10: frame effect of the tile loop -/

/-- Characterization of the column loop: it writes the four channels of
the pixels of row `Y` with columns in `[x0, x0 + n)` and leaves every
other destination entry unchanged. -/
theorem processRowAux_spec (p : LICProcessor) (Y : ℤ) :
    ∀ (n : ℕ) (x0 : ℤ) (dst : DstImage) (x y : ℤ) (c : Fin 4),
      processRowAux p Y n x0 dst x y c =
        if x0 ≤ x ∧ x < x0 + (n : ℤ) ∧ y = Y then rgbaGet (processPixel p x Y) c
        else dst x y c := by
  intro n
  induction n with
  | zero =>
    intro x0 dst x y c
    rw [processRowAux, if_neg (by omega)]
  | succ m ih =>
    intro x0 dst x y c
    rw [processRowAux, ih, writePixel]
    split_ifs <;> first | rfl | omega | simp_all

/-- Characterization of the row loop below a stopping row `yStop`: rows
`y0 .. yStop - 1` are processed, everything else is unchanged. -/
theorem processTileAux_spec (p : LICProcessor) (win : OfxRectI) (abortAt : ℤ → Bool)
    (yStop : ℤ) (hsle : yStop ≤ win.y2)
    (habort : ∀ z, win.y1 ≤ z → z < yStop → abortAt z = false)
    (hstop : yStop < win.y2 → abortAt yStop = true) :
    ∀ (m : ℕ) (y0 : ℤ) (dst : DstImage),
      (y0 : ℤ) + (m : ℤ) = win.y2 → win.y1 ≤ y0 → y0 ≤ yStop →
      ∀ (x y : ℤ) (c : Fin 4),
        processTileAux p win abortAt m y0 dst x y c =
          if win.x1 ≤ x ∧ x < win.x2 ∧ y0 ≤ y ∧ y < yStop then
            rgbaGet (processPixel p x y) c
          else dst x y c := by
  intro m
  induction m with
  | zero =>
    intro y0 dst hm hy1 hy2 x y c
    rw [processTileAux]
    rw [if_neg (by omega)]
  | succ k ih =>
    intro y0 dst hm hy1 hy2 x y c
    rw [processTileAux]
    by_cases hab : y0 = yStop
    · have htrue : abortAt y0 = true := by
        rw [hab]
        exact hstop (by omega)
      rw [htrue]
      simp only [if_true]
      rw [if_neg (by omega)]
    · have hfalse : abortAt y0 = false := habort y0 hy1 (by omega)
      rw [hfalse]
      simp only [Bool.false_eq_true, if_false]
      rw [ih (y0 + 1) _ (by omega) (by omega) (by omega), processRowAux_spec]
      split_ifs <;> first | rfl | omega | simp_all

/-- C10: one invocation of the tile entry point writes exactly the four
channels of the pixels inside the render window whose rows precede the
first row at which the abort flag is observed (`yStop`; `yStop = y2` when
no abort is observed), each receiving the per-pixel kernel output, and
leaves every other destination entry unchanged; the vector-field inputs
are read-only throughout (the processor is passed immutably). -/
theorem multiThreadProcessImages_frame (p : LICProcessor) (win : OfxRectI)
    (abortAt : ℤ → Bool) (dst : DstImage) (yStop : ℤ)
    (h1 : win.y1 ≤ yStop) (h2 : yStop ≤ win.y2)
    (habort : ∀ z, win.y1 ≤ z → z < yStop → abortAt z = false)
    (hstop : yStop < win.y2 → abortAt yStop = true)
    (x y : ℤ) (c : Fin 4) :
    multiThreadProcessImages p win abortAt dst x y c =
      if win.x1 ≤ x ∧ x < win.x2 ∧ win.y1 ≤ y ∧ y < yStop then
        rgbaGet (processPixel p x y) c
      else dst x y c := by
  rw [multiThreadProcessImages]
  exact processTileAux_spec p win abortAt yStop h2 habort hstop
    (win.y2 - win.y1).toNat win.y1 dst (by omega) le_rfl h1 x y c

/-- C10 witness: the frame characterization applied to a one-pixel render
window over the zero-field processor, with no abort, at the alpha channel
of the processed pixel. -/
theorem multiThreadProcessImages_frame_witness :
    multiThreadProcessImages zeroFieldProcessor ⟨0, 0, 1, 1⟩ (fun _ => false)
        (fun _ _ _ => 0) 0 0 3 =
      if (0 : ℤ) ≤ 0 ∧ (0 : ℤ) < 1 ∧ (0 : ℤ) ≤ 0 ∧ (0 : ℤ) < 1 then
        rgbaGet (processPixel zeroFieldProcessor 0 0) 3
      else 0 :=
  multiThreadProcessImages_frame zeroFieldProcessor ⟨0, 0, 1, 1⟩ (fun _ => false)
    (fun _ _ _ => 0) 1 (by decide) (by decide)
    (fun _ _ _ => rfl) (fun h => absurd h (by decide)) 0 0 3

/-! ## Claim C4: the NaN-aware model of the per-pixel kernel

The exact-arithmetic model above cannot represent an IEEE NaN stored in
the vector field, which claim C4 quantifies over.  This section repeats
the per-pixel kernel over `Option ℝ`, where `none` models NaN and every
arithmetic operation propagates it, with the C++ comparison semantics:
`NaN != 0` is true, `NaN == 0` is false, and `NaN < x` is false. -/

/-- A float value: `some r` for a finite value, `none` for NaN. -/
abbrev FF : Type := Option ℝ

/-- Addition with NaN propagation. -/
def fadd : FF → FF → FF
  | some a, some b => some (a + b)
  | _, _ => none

/-- Multiplication with NaN propagation. -/
def fmul : FF → FF → FF
  | some a, some b => some (a * b)
  | _, _ => none

/-- Division with NaN propagation; `0/0` is NaN.  A division of a
nonzero value by zero would be an IEEE infinity; the kernel only ever
divides by zero in the form `0/0` in exact arithmetic, so this case is
modelled as NaN as well and is unreached in the theorems below. -/
noncomputable def fdiv : FF → FF → FF
  | some a, some b => if b = 0 then none else some (a / b)
  | _, _ => none

/-- Square root with NaN propagation; negative arguments yield NaN. -/
noncomputable def fsqrt : FF → FF
  | some a => if a < 0 then none else some (Real.sqrt a)
  | none => none

/-- The C++ test `std::isnan(v)`. -/
def fIsNaN : FF → Prop
  | some _ => False
  | none => True

/-- The C++ comparison `v == 0` (false for NaN). -/
def fEqZero : FF → Prop
  | some a => a = 0
  | none => False

/-- The C++ comparison `v != 0` (true for NaN). -/
def fNeZero : FF → Prop
  | some a => a ≠ 0
  | none => True

/-- The C++ comparison `a < b` (false when either side is NaN). -/
def fLt : FF → FF → Prop
  | some a, some b => a < b
  | _, _ => False

/-- A vector-field input image over the NaN-aware value type. -/
structure ImageF where
  bounds : OfxRectI
  data : ℤ → ℤ → FF

/-- The sampler over the NaN-aware model: real coordinates are truncated
and clamped exactly as in `sampleImageData`.  A NaN coordinate (where the
C++ float-to-int cast has undefined behavior) is modelled as producing
NaN; it is unreached in the theorems below because frozen mode stops
sampling the field before a position can become NaN. -/
noncomputable def sampleImageDataF (img : ImageF) (x y : FF) : FF :=
  match x, y with
  | some a, some b =>
    img.data (clamp (truncToInt a) img.bounds.x1 (img.bounds.x2 - 1))
      (clamp (truncToInt b) img.bounds.y1 (img.bounds.y2 - 1))
  | _, _ => none

/-- The processor state over the NaN-aware model. -/
structure LICProcessorF where
  vectorXImg : ImageF
  vectorYImg : ImageF
  noise : FF → FF → FF
  frequency : ℝ
  num_steps : ℤ
  use_weight_window : Bool
  weight_window_width : ℤ
  weight_window_offset : ℤ

/-- `sampleRandomData` over the NaN-aware model. -/
noncomputable def sampleRandomDataF (p : LICProcessorF) (x y : FF) : FF :=
  fadd (some 0.5) (fmul (some 0.5)
    (p.noise (fmul (some p.frequency) x) (fmul (some p.frequency) y)))

/-- The step weight of the NaN-aware processor (integer arithmetic, so it
is never NaN). -/
def LICProcessorF.weight (p : LICProcessorF) (signedIdx : ℤ) : ℚ :=
  getStepWeight p.use_weight_window p.num_steps p.weight_window_width
    p.weight_window_offset signedIdx

/-- The per-pass state over the NaN-aware model. -/
structure StepStateF where
  px : FF
  py : FF
  uxLast : FF
  uyLast : FF
  useLast : Bool
  acc : FF
  weightSum : FF

open Classical in
/-- One loop iteration over the NaN-aware model, with the full C++
degeneracy test `isnan(ux) || isnan(uy) || (ux == 0 && uy == 0)`. -/
noncomputable def licStepF (p : LICProcessorF) (sign : ℤ) (i : ℕ) (s : StepStateF) :
    StepStateF :=
  let ux0 := if s.useLast then s.uxLast else sampleImageDataF p.vectorXImg s.px s.py
  let uy0 := if s.useLast then s.uyLast else sampleImageDataF p.vectorYImg s.px s.py
  let umag := fsqrt (fadd (fmul ux0 ux0) (fmul uy0 uy0))
  let ux1 := fdiv ux0 umag
  let uy1 := fdiv uy0 umag
  let degen := fIsNaN ux1 ∨ fIsNaN uy1 ∨ (fEqZero ux1 ∧ fEqZero uy1)
  let ux2 := if degen then s.uxLast else ux1
  let uy2 := if degen then s.uyLast else uy1
  let useLast2 := if degen then true else s.useLast
  let px2 := fadd s.px (fmul (some ((sign : ℝ))) ux2)
  let py2 := fadd s.py (fmul (some ((sign : ℝ))) uy2)
  let w : ℚ := p.weight (sign * ((i : ℤ) + 1))
  { px := px2, py := py2, uxLast := ux2, uyLast := uy2, useLast := useLast2,
    acc := fadd s.acc (fmul (some ((w : ℝ))) (sampleRandomDataF p px2 py2)),
    weightSum := fadd s.weightSum (some ((w : ℝ))) }

/-- Running the first `n` iterations of a pass over the NaN-aware model. -/
noncomputable def licPassF (p : LICProcessorF) (sign : ℤ) : ℕ → StepStateF → StepStateF
  | 0, s => s
  | n + 1, s => licStepF p sign n (licPassF p sign n s)

/-- Unfolding of one NaN-aware loop iteration. -/
theorem licPassF_succ (p : LICProcessorF) (sign : ℤ) (n : ℕ) (s : StepStateF) :
    licPassF p sign (n + 1) s = licStepF p sign n (licPassF p sign n s) := rfl

/-- The NaN-aware pass with no iterations is the identity. -/
theorem licPassF_zero (p : LICProcessorF) (sign : ℤ) (s : StepStateF) :
    licPassF p sign 0 s = s := rfl

/-- The raw seed vector X component over the NaN-aware model. -/
noncomputable def seedSampleXF (p : LICProcessorF) (x y : ℤ) : FF :=
  sampleImageDataF p.vectorXImg (some ((x : ℝ))) (some ((y : ℝ)))

/-- The raw seed vector Y component over the NaN-aware model. -/
noncomputable def seedSampleYF (p : LICProcessorF) (x y : ℤ) : FF :=
  sampleImageDataF p.vectorYImg (some ((x : ℝ))) (some ((y : ℝ)))

/-- The forward-loop start state over the NaN-aware model. -/
noncomputable def forwardInitF (p : LICProcessorF) (x y : ℤ) : StepStateF :=
  { px := some ((x : ℝ)), py := some ((y : ℝ)),
    uxLast := seedSampleXF p x y, uyLast := seedSampleYF p x y,
    useLast := false,
    acc := fmul (some ((p.weight 0 : ℚ) : ℝ))
      (sampleRandomDataF p (some ((x : ℝ))) (some ((y : ℝ)))),
    weightSum := some ((p.weight 0 : ℚ) : ℝ) }

/-- The backward-loop start state over the NaN-aware model. -/
noncomputable def backwardInitF (p : LICProcessorF) (x y : ℤ) : StepStateF :=
  let s1 := licPassF p 1 p.num_steps.toNat (forwardInitF p x y)
  { px := some ((x : ℝ)), py := some ((y : ℝ)),
    uxLast := seedSampleXF p x y, uyLast := seedSampleYF p x y,
    useLast := false,
    acc := s1.acc, weightSum := s1.weightSum }

/-- An RGBA output pixel over the NaN-aware model. -/
structure RGBAF where
  r : FF
  g : FF
  b : FF
  a : FF

open Classical in
/-- The per-pixel kernel over the NaN-aware model, with the C++ seed test
`ux != 0 || uy != 0` (true when a component is NaN). -/
noncomputable def processPixelF (p : LICProcessorF) (x y : ℤ) : RGBAF :=
  let ux := seedSampleXF p x y
  let uy := seedSampleYF p x y
  let s2 := licPassF p (-1) p.num_steps.toNat (backwardInitF p x y)
  let acc := if fNeZero ux ∨ fNeZero uy then s2.acc else some 0
  let ws := if fNeZero ux ∨ fNeZero uy then s2.weightSum else some 0
  let value := fdiv acc ws
  if fLt ws (some (1 / 2)) then ⟨some 0, some 0, some 0, some 0⟩
  else ⟨value, value, value, some 1⟩

/-- C4 (amended): the per-pixel kernel never fails: on every input,
including vector fields with NaN components, it writes either the fully
transparent zero pixel `(0, 0, 0, 0)` or an opaque pixel
`(v, v, v, 1)`; a zero seed vector surfaces as the transparent pixel
(claim C5), but a seed vector with a NaN component passes the
`ux != 0 || uy != 0` test and yields the opaque alternative, not the
transparent one (see the counterexample). -/
theorem processPixelF_no_error (p : LICProcessorF) (x y : ℤ) :
    processPixelF p x y = ⟨some 0, some 0, some 0, some 0⟩ ∨
      ∃ v : FF, processPixelF p x y = ⟨v, v, v, some 1⟩ := by
  rw [processPixelF]
  by_cases h : fLt
      (if fNeZero (seedSampleXF p x y) ∨ fNeZero (seedSampleYF p x y) then
        (licPassF p (-1) p.num_steps.toNat (backwardInitF p x y)).weightSum
      else some 0)
      (some (1 / 2))
  · left
    rw [if_pos h]
  · right
    exact ⟨_, if_neg h⟩

/-- A concrete NaN-aware processor whose vector field is `(NaN, 1)` at
every pixel, with constant zero noise. -/
noncomputable def nanSeedProcessorF : LICProcessorF :=
  { vectorXImg := ⟨⟨0, 0, 1, 1⟩, fun _ _ => none⟩,
    vectorYImg := ⟨⟨0, 0, 1, 1⟩, fun _ _ => some 1⟩,
    noise := fun _ _ => some 0,
    frequency := 1, num_steps := 1, use_weight_window := false,
    weight_window_width := 10, weight_window_offset := 0 }

/-- C4 counterexample: at a pixel whose seed vector is `(NaN, 1)`, the
degeneracy `NaN after normalization` fires at the first step of each
pass, yet the kernel emits the opaque pixel
`(1/2, 1/2, 1/2, 1)` (with the constant-zero noise of
`nanSeedProcessorF`), not a fully transparent pixel: its alpha is `1`,
not `0`. -/
theorem processPixelF_nan_seed_opaque :
    fIsNaN (seedSampleXF nanSeedProcessorF 0 0) ∧
    processPixelF nanSeedProcessorF 0 0 =
      ⟨some (1 / 2), some (1 / 2), some (1 / 2), some 1⟩ ∧
    (some (1 : ℝ) : FF) ≠ some (0 : ℝ) := by
  have hnoise : ∀ u v : FF, nanSeedProcessorF.noise u v = some 0 := fun _ _ => rfl
  have hrand : ∀ u v : FF, sampleRandomDataF nanSeedProcessorF u v = some (1 / 2) := by
    intro u v
    rw [sampleRandomDataF, hnoise]
    show fadd (some 0.5) (fmul (some 0.5) (some 0)) = some (1 / 2)
    rw [fmul, fadd]
    norm_num
  have hw : ∀ i : ℤ, nanSeedProcessorF.weight i = 1 := fun i => rfl
  have hsx : seedSampleXF nanSeedProcessorF 0 0 = none := rfl
  have hsy : seedSampleYF nanSeedProcessorF 0 0 = some 1 := rfl
  refine ⟨trivial, ?_, by norm_num⟩
  have hfi : forwardInitF nanSeedProcessorF 0 0 =
      { px := some ((0 : ℝ)), py := some ((0 : ℝ)),
        uxLast := none, uyLast := some 1, useLast := false,
        acc := some (1 / 2), weightSum := some 1 } := by
    rw [forwardInitF, hw, hrand, hsx, hsy]
    show StepStateF.mk (some (((0 : ℤ) : ℝ))) (some (((0 : ℤ) : ℝ))) none (some 1) false
        (fmul (some (((1 : ℚ) : ℝ))) (some (1 / 2))) (some (((1 : ℚ) : ℝ))) = _
    rw [fmul]
    norm_num
  have ht1 : nanSeedProcessorF.num_steps.toNat = 1 := rfl
  have hs1 : licPassF nanSeedProcessorF 1 nanSeedProcessorF.num_steps.toNat
      (forwardInitF nanSeedProcessorF 0 0) =
      ⟨none, some 1, none, some 1, true, some 1, some 2⟩ := by
    rw [ht1, licPassF_succ, licPassF_zero, hfi, licStepF]
    simp only [hrand, hw]
    norm_num [fadd, fmul, fdiv, fsqrt, fIsNaN, fEqZero, sampleImageDataF, nanSeedProcessorF]
  have hbi : backwardInitF nanSeedProcessorF 0 0 =
      ⟨some 0, some 0, none, some 1, false, some 1, some 2⟩ := by
    rw [backwardInitF, hs1, hsx, hsy]
    norm_num
  have hs2 : licPassF nanSeedProcessorF (-1) nanSeedProcessorF.num_steps.toNat
      (backwardInitF nanSeedProcessorF 0 0) =
      ⟨none, some (-1), none, some 1, true, some (3 / 2), some 3⟩ := by
    rw [ht1, licPassF_succ, licPassF_zero, hbi, licStepF]
    simp only [hrand, hw]
    norm_num [fadd, fmul, fdiv, fsqrt, fIsNaN, fEqZero, sampleImageDataF, nanSeedProcessorF]
  rw [processPixelF, hs2, hsx, hsy]
  norm_num [fNeZero, fLt, fdiv]

end LIC
